import Mathlib

/-!
Portfolio operations of `portfolio_optimization_funcptr.cpp`.

A shallow embedding of the portfolio program: the `Stock` record, the
`Portfolio` vector, and the functions `calculate_total_value`, `buy_stock`
and `sell_stock`, followed by theorems about them.

Modelling conventions.

* `Portfolio = std::vector<Stock>` is a `List Stock`; a function that mutates
  its `Portfolio&` argument returns the new portfolio.
* `Price = double` is taken as an exact rational (`ℚ`): rounding is not
  modelled.
* Console output is the list of messages written to `std::cout`, one `Msg` per
  line of text, carrying the values that are printed in it.
* The `operations` map of `main` is the list of its entries, read with
  `List.lookup`.
* The program is modelled at two levels. In `buy_stock` and `sell_stock`
  a `Quantity` is an unbounded integer and the `symbol` argument is a value
  held outside the portfolio, as it is in `main`. In `buy_stock_machine` and
  `sell_stock_machine` the quantity arithmetic is that of a 32-bit `int`
  (`wrap_int`) and `sell_stock_machine` reads its `const Symbol&` argument
  through the reference (`SymbolRef`), which may point into the portfolio.
  The two levels agree when nothing overflows and the symbol is held outside
  the portfolio: `buy_stock_machine_eq_buy_stock`,
  `sell_stock_machine_eq_sell_stock`.
-/

namespace PortfolioOptimization

/-- Type alias `using Symbol = std::string`. -/
abbrev Symbol := String

/-- Type alias `using Price = double`, taken as an exact rational. -/
abbrev Price := ℚ

/-- Type alias `using Quantity = int`, taken as an unbounded integer. -/
abbrev Quantity := Int

/-- Record `struct Stock`: a stock holding in the portfolio. -/
structure Stock where
  symbol : Symbol
  price : Price
  quantity : Quantity
  deriving DecidableEq, Repr

/-- Type alias `using Portfolio = std::vector<Stock>`. -/
abbrev Portfolio := List Stock

/-- One line written to `std::cout` by `buy_stock` or `sell_stock`.

* `bought q s p`: "Bought q shares of s at $p."
* `sold q s`: "Sold q shares of s."
* `notEnough s`: "Not enough shares of s to sell."
* `notFound s`: "Stock s not found in portfolio." -/
inductive Msg where
  | bought (quantity : Quantity) (symbol : Symbol) (price : Price)
  | sold (quantity : Quantity) (symbol : Symbol)
  | notEnough (symbol : Symbol)
  | notFound (symbol : Symbol)
  deriving DecidableEq, Repr

/-- Function `calculate_total_value`: the loop
`for (stock : portfolio) total_value += stock.price * stock.quantity`
started at `total_value = 0.0`. -/
def calculate_total_value (portfolio : Portfolio) : Price :=
  portfolio.foldl (fun total_value stock => total_value + stock.price * stock.quantity) 0

/-- The range-for loop of `buy_stock`: `visited` are the elements already
passed over (none of them matched), `remaining` the ones still to visit.
On the first element whose symbol equals `symbol` the quantity is increased,
the price overwritten, and the function returns; `none` means the loop ran
to the end without returning. -/
def buy_stock_loop (symbol : Symbol) (price : Price) (quantity : Quantity) :
    (visited remaining : List Stock) → Option Portfolio
  | _, [] => none
  | visited, stock :: rest =>
    if stock.symbol = symbol then
      some (visited ++
        { stock with quantity := stock.quantity + quantity, price := price } :: rest)
    else
      buy_stock_loop symbol price quantity (visited ++ [stock]) rest

/-- Function `buy_stock`: update the first holding with the symbol, or
`push_back` a new holding when the loop finds none. Both paths print the same
"Bought" line. -/
def buy_stock (portfolio : Portfolio) (symbol : Symbol) (price : Price)
    (quantity : Quantity) : Portfolio × List Msg :=
  match buy_stock_loop symbol price quantity [] portfolio with
  | some portfolio' => (portfolio', [Msg.bought quantity symbol price])
  | none =>
    (portfolio ++ [{ symbol := symbol, price := price, quantity := quantity }],
      [Msg.bought quantity symbol price])

/-- The erase-remove idiom of `sell_stock`:
`portfolio.erase(std::remove_if(begin, end, s.symbol == symbol), end)`
drops every element whose symbol equals `symbol` and keeps the others in
their order. -/
def erase_symbol (portfolio : Portfolio) (symbol : Symbol) : Portfolio :=
  portfolio.filter (fun s => !decide (s.symbol = symbol))

/-- The range-for loop of `sell_stock`, with `visited` and `remaining` as in
`buy_stock_loop`. On the first element whose symbol equals `symbol`:
if it holds at least `quantity` shares the quantity is decreased, "Sold" is
printed, and when the quantity became zero every holding with that symbol is
erased from the whole vector; otherwise "Not enough shares" is printed. The
function returns there in both cases. When the loop ends without a match the
"not found" line is printed. -/
def sell_stock_loop (symbol : Symbol) (quantity : Quantity) :
    (visited remaining : List Stock) → Portfolio × List Msg
  | visited, [] => (visited, [Msg.notFound symbol])
  | visited, stock :: rest =>
    if stock.symbol = symbol then
      if stock.quantity ≥ quantity then
        let stock' : Stock := { stock with quantity := stock.quantity - quantity }
        let portfolio' : Portfolio := visited ++ stock' :: rest
        if stock'.quantity = 0 then
          (erase_symbol portfolio' symbol, [Msg.sold quantity symbol])
        else
          (portfolio', [Msg.sold quantity symbol])
      else
        (visited ++ stock :: rest, [Msg.notEnough symbol])
    else
      sell_stock_loop symbol quantity (visited ++ [stock]) rest

/-- Function `sell_stock`. -/
def sell_stock (portfolio : Portfolio) (symbol : Symbol) (quantity : Quantity) :
    Portfolio × List Msg :=
  sell_stock_loop symbol quantity [] portfolio

/-- One call made on the portfolio: `buy_stock(portfolio, symbol, price, quantity)`
or `sell_stock(portfolio, symbol, quantity)`. -/
inductive Call where
  | buy (symbol : Symbol) (price : Price) (quantity : Quantity)
  | sell (symbol : Symbol) (quantity : Quantity)
  deriving DecidableEq, Repr

/-- The portfolio after one call. -/
def Call.run (portfolio : Portfolio) : Call → Portfolio
  | Call.buy symbol price quantity => (buy_stock portfolio symbol price quantity).1
  | Call.sell symbol quantity => (sell_stock portfolio symbol quantity).1

/-- The portfolio after a sequence of calls, made in order. -/
def run_calls (portfolio : Portfolio) (calls : List Call) : Portfolio :=
  calls.foldl Call.run portfolio

/-- No two holdings (at different positions) share a symbol. -/
def UniqueBySymbol (portfolio : Portfolio) : Prop :=
  (portfolio.map Stock.symbol).Nodup

instance (portfolio : Portfolio) : Decidable (UniqueBySymbol portfolio) := by
  unfold UniqueBySymbol; infer_instance

/-- The holding invariant of the data model: every quantity is at least 0, and
no holding has quantity 0. -/
def HoldingInvariant (portfolio : Portfolio) : Prop :=
  ∀ stock ∈ portfolio, 0 ≤ stock.quantity ∧ stock.quantity ≠ 0

instance (portfolio : Portfolio) : Decidable (HoldingInvariant portfolio) := by
  unfold HoldingInvariant; infer_instance

/-- A portfolio of two holdings, used to instantiate the theorems below: the
state of `main` after its two buys. -/
def sample_portfolio : Portfolio :=
  [{ symbol := "ABC", price := 50, quantity := 10 },
   { symbol := "XYZ", price := 25, quantity := 20 }]

/-- The four calls made by `main`, in order. -/
def sample_calls : List Call :=
  [Call.buy "ABC" 50 10, Call.buy "XYZ" 25 20, Call.sell "ABC" 5, Call.sell "XYZ" 20]

/-- The quantity argument of a call. -/
def Call.quantity : Call → Quantity
  | Call.buy _ _ quantity => quantity
  | Call.sell _ quantity => quantity

/-- Type alias `using PortfolioOperation = void(*)(Portfolio&, const Symbol&, Price, Quantity)`:
an operation takes the portfolio, a symbol, a price and a quantity. -/
abbrev PortfolioOperation := Portfolio → Symbol → Price → Quantity → Portfolio × List Msg

/-- The table `operations` of `main`, as the list of its two entries: "buy" is
`buy_stock` itself, "sell" is the lambda that drops its price argument and
calls `sell_stock`. The entry `operations[key]` is `List.lookup key operations`. -/
def operations : List (String × PortfolioOperation) :=
  [("buy", buy_stock),
   ("sell", fun portfolio symbol _price quantity => sell_stock portfolio symbol quantity)]

/-- The holdings whose symbol differs from `symbol`, in their order. -/
def other_holdings (portfolio : Portfolio) (symbol : Symbol) : Portfolio :=
  portfolio.filter (fun st => decide (st.symbol ≠ symbol))

/-- One buy of a sequence of buys: the symbol, price and quantity arguments of
a `buy_stock` call. -/
structure Buy where
  symbol : Symbol
  price : Price
  quantity : Quantity
  deriving DecidableEq, Repr

/-- The call `buy_stock(portfolio, symbol, price, quantity)` of a buy. -/
def Buy.call (b : Buy) : Call :=
  Call.buy b.symbol b.price b.quantity

/-- Specification: the distinct symbols of a list, each at the place of its
first occurrence. -/
def first_occurrences : List Symbol → List Symbol
  | [] => []
  | s :: rest => s :: (first_occurrences rest).filter (fun t => decide (t ≠ s))

/-- Specification: the buys of symbol `s`, in the order they were made. -/
def buys_of (buys : List Buy) (s : Symbol) : List Buy :=
  buys.filter (fun b => decide (b.symbol = s))

/-- Specification: the sum of all quantities bought for symbol `s`. -/
def total_bought (buys : List Buy) (s : Symbol) : Quantity :=
  ((buys_of buys s).map Buy.quantity).sum

/-- Specification: the price of the last buy of symbol `s`, if there is one. -/
def last_price (buys : List Buy) (s : Symbol) : Option Price :=
  (buys_of buys s).getLast?.map Buy.price

/-- Specification: the holding of symbol `s` after the buys. The price is the
last buy price; the value 0 stands in when `s` was never bought, a case that
`expected_portfolio` does not reach. -/
def expected_holding (buys : List Buy) (s : Symbol) : Stock :=
  { symbol := s, price := (last_price buys s).getD 0, quantity := total_bought buys s }

/-- Specification: the portfolio after a sequence of buys, one holding per
distinct symbol in order of first buy. -/
def expected_portfolio (buys : List Buy) : Portfolio :=
  (first_occurrences (buys.map Buy.symbol)).map (expected_holding buys)

/-- Three buys, the first and the last of the same symbol, used to instantiate
the theorems below. -/
def sample_buys : List Buy :=
  [{ symbol := "ABC", price := 50, quantity := 10 },
   { symbol := "XYZ", price := 25, quantity := 20 },
   { symbol := "ABC", price := 60, quantity := 5 }]

/-! ## The machine-level model: 32-bit `int` and the reference argument

The definitions above take `Quantity` as an unbounded integer and the `symbol`
argument as a value. The definitions below repeat `buy_stock` and `sell_stock`
with the two details the program has beyond that: `stock.quantity += quantity`
and `stock.quantity -= quantity` are computed on a 32-bit `int`, and
`sell_stock` reads its `const Symbol&` argument through the reference, also
inside the predicate of `std::remove_if`. -/

/-- The value an `int` holds after an arithmetic result `x`: `x` itself when it
lies in the range of a 32-bit `int`, and otherwise `x` reduced modulo `2^32`
into that range, which is what the compiled program stores (the C++ standard
leaves signed overflow undefined). -/
def wrap_int (x : Int) : Int :=
  (x + 2147483648) % 4294967296 - 2147483648

/-- The value lies in the range of a 32-bit `int`. -/
def in_int_range (x : Int) : Prop :=
  -2147483648 ≤ x ∧ x ≤ 2147483647

instance (x : Int) : Decidable (in_int_range x) := by
  unfold in_int_range; infer_instance

/-- The loop of `buy_stock` with `stock.quantity += quantity` on `int`. -/
def buy_stock_machine_loop (symbol : Symbol) (price : Price) (quantity : Quantity) :
    (visited remaining : List Stock) → Option Portfolio
  | _, [] => none
  | visited, stock :: rest =>
    if stock.symbol = symbol then
      some (visited ++
        { stock with quantity := wrap_int (stock.quantity + quantity), price := price } :: rest)
    else
      buy_stock_machine_loop symbol price quantity (visited ++ [stock]) rest

/-- Function `buy_stock` with `int` arithmetic. Its `symbol` argument is a value:
`buy_stock` writes no symbol before it stops reading the argument, so a
reference into the portfolio reads the same value throughout. -/
def buy_stock_machine (portfolio : Portfolio) (symbol : Symbol) (price : Price)
    (quantity : Quantity) : Portfolio × List Msg :=
  match buy_stock_machine_loop symbol price quantity [] portfolio with
  | some portfolio' => (portfolio', [Msg.bought quantity symbol price])
  | none =>
    (portfolio ++ [{ symbol := symbol, price := price, quantity := quantity }],
      [Msg.bought quantity symbol price])

/-- The portfolio after a sequence of buys made with `buy_stock_machine`. -/
def run_buys_machine (portfolio : Portfolio) (buys : List Buy) : Portfolio :=
  buys.foldl (fun current b => (buy_stock_machine current b.symbol b.price b.quantity).1)
    portfolio

/-- What the argument `const Symbol& symbol` of `sell_stock` refers to: a
string held outside the portfolio, or the `symbol` field of the element at
`index` of the portfolio itself, as in `sell_stock(p, p[index].symbol, q)`. -/
inductive SymbolRef where
  | value (symbol : Symbol)
  | element (index : Nat)
  deriving DecidableEq, Repr

/-- The string read through the reference when the vector holds `slots`. A
reference to an element outside the vector is not a valid argument; it reads
as the empty string. -/
def SymbolRef.read (slots : List Stock) : SymbolRef → Symbol
  | SymbolRef.value symbol => symbol
  | SymbolRef.element index =>
    match slots[index]? with
    | some stock => stock.symbol
    | none => ""

/-- The compaction loop of `std::remove_if`:
`for (; first != last; ++first) if (!pred(*first)) *result++ = std::move(*first);`
with `pred(s) = (s.symbol == symbol)` reading `symbol` through the reference
at each test. The move assignment gives the slot at `result` the whole element
and leaves the moved-from string at `first` empty. `steps` is the number of
elements from `first` to `last`. The result is the vector and the final
`result` position. -/
def remove_if_loop (ref : SymbolRef) : Nat → List Stock → Nat → Nat → List Stock × Nat
  | 0, slots, result, _ => (slots, result)
  | steps + 1, slots, result, first =>
    match slots[first]? with
    | none => (slots, result)
    | some stock =>
      if stock.symbol = ref.read slots then
        remove_if_loop ref steps slots result (first + 1)
      else
        remove_if_loop ref steps
          ((slots.set result stock).set first { stock with symbol := "" })
          (result + 1) (first + 1)

/-- Algorithm `std::remove_if(begin, end, pred)`: `std::find_if` locates the first
element that satisfies the predicate (nothing is written meanwhile), and the
compaction loop runs from the element after it. -/
def remove_if (slots : List Stock) (ref : SymbolRef) : List Stock × Nat :=
  let first := slots.findIdx (fun stock => decide (stock.symbol = ref.read slots))
  if first < slots.length then
    remove_if_loop ref (slots.length - (first + 1)) slots first (first + 1)
  else
    (slots, first)

/-- The erase-remove idiom of `sell_stock` with the predicate reading `symbol`
through the reference: `remove_if` compacts the vector and `erase` cuts it at
the returned position. -/
def erase_remove_if (portfolio : Portfolio) (ref : SymbolRef) : Portfolio :=
  (remove_if portfolio ref).1.take (remove_if portfolio ref).2

/-- The loop of `sell_stock` with `stock.quantity -= quantity` on `int` and
`symbol` read through the reference at each use. -/
def sell_stock_machine_loop (ref : SymbolRef) (quantity : Quantity) :
    (visited remaining : List Stock) → Portfolio × List Msg
  | visited, [] => (visited, [Msg.notFound (ref.read visited)])
  | visited, stock :: rest =>
    if stock.symbol = ref.read (visited ++ stock :: rest) then
      if stock.quantity ≥ quantity then
        let stock' : Stock := { stock with quantity := wrap_int (stock.quantity - quantity) }
        let portfolio' : Portfolio := visited ++ stock' :: rest
        if stock'.quantity = 0 then
          (erase_remove_if portfolio' ref, [Msg.sold quantity (ref.read portfolio')])
        else
          (portfolio', [Msg.sold quantity (ref.read portfolio')])
      else
        (visited ++ stock :: rest, [Msg.notEnough (ref.read (visited ++ stock :: rest))])
    else
      sell_stock_machine_loop ref quantity (visited ++ [stock]) rest

/-- Function `sell_stock` with `int` arithmetic and the reference argument. -/
def sell_stock_machine (portfolio : Portfolio) (ref : SymbolRef) (quantity : Quantity) :
    Portfolio × List Msg :=
  sell_stock_machine_loop ref quantity [] portfolio

/-- A single holding at the largest `int` quantity. -/
def overflow_portfolio : Portfolio :=
  [{ symbol := "ABC", price := 50, quantity := 2147483647 }]

/-- Two buys of one symbol whose quantities sum to more than the largest `int`. -/
def overflow_buys : List Buy :=
  [{ symbol := "A", price := 1, quantity := 2147483647 },
   { symbol := "A", price := 1, quantity := 1 }]

theorem foldl_total_value (portfolio : Portfolio) (start : Price) :
    portfolio.foldl
        (fun total_value stock => total_value + stock.price * (stock.quantity : Price)) start
      = start + (portfolio.map (fun stock => stock.price * (stock.quantity : Price))).sum := by
  induction portfolio generalizing start with
  | nil => simp
  | cons stock rest ih => simp [ih, add_assoc]

theorem exists_first_of_mem (symbol : Symbol) (portfolio : Portfolio)
    (h : ∃ st ∈ portfolio, st.symbol = symbol) :
    ∃ pre stock post, portfolio = pre ++ stock :: post ∧
      (∀ x ∈ pre, x.symbol ≠ symbol) ∧ stock.symbol = symbol := by
  induction portfolio with
  | nil => simp at h
  | cons a rest ih =>
    by_cases ha : a.symbol = symbol
    · exact ⟨[], a, rest, rfl, by simp, ha⟩
    · have h' : ∃ st ∈ rest, st.symbol = symbol := by
        obtain ⟨st, hst, hs⟩ := h
        rcases List.mem_cons.mp hst with rfl | hmem
        · exact absurd hs ha
        · exact ⟨st, hmem, hs⟩
      obtain ⟨pre, stock, post, hsplit, hpre, hstock⟩ := ih h'
      refine ⟨a :: pre, stock, post, by simp [hsplit], ?_, hstock⟩
      intro x hx
      rcases List.mem_cons.mp hx with rfl | hmem
      · exact ha
      · exact hpre x hmem

theorem split_of_find (symbol : Symbol) (portfolio : Portfolio) (stock : Stock)
    (h : portfolio.find? (fun st => decide (st.symbol = symbol)) = some stock) :
    ∃ pre post, portfolio = pre ++ stock :: post ∧
      (∀ x ∈ pre, x.symbol ≠ symbol) ∧ stock.symbol = symbol := by
  induction portfolio with
  | nil => simp at h
  | cons a rest ih =>
    by_cases ha : a.symbol = symbol
    · have : a = stock := by simpa [List.find?, ha] using h
      subst this
      exact ⟨[], rest, rfl, by simp, ha⟩
    · have h' : rest.find? (fun st => decide (st.symbol = symbol)) = some stock := by
        simpa [List.find?, ha] using h
      obtain ⟨pre, post, hsplit, hpre, hstock⟩ := ih h'
      refine ⟨a :: pre, post, by simp [hsplit], ?_, hstock⟩
      intro x hx
      rcases List.mem_cons.mp hx with rfl | hmem
      · exact ha
      · exact hpre x hmem

theorem buy_stock_loop_none (symbol : Symbol) (price : Price) (quantity : Quantity)
    (visited remaining : List Stock) (h : ∀ x ∈ remaining, x.symbol ≠ symbol) :
    buy_stock_loop symbol price quantity visited remaining = none := by
  induction remaining generalizing visited with
  | nil => rfl
  | cons a rest ih =>
    have ha : a.symbol ≠ symbol := h a (List.mem_cons_self _ _)
    simp only [buy_stock_loop, if_neg ha]
    exact ih _ (fun x hx => h x (List.mem_cons_of_mem _ hx))

theorem buy_stock_loop_some (symbol : Symbol) (price : Price) (quantity : Quantity)
    (visited pre : List Stock) (stock : Stock) (post : List Stock)
    (hpre : ∀ x ∈ pre, x.symbol ≠ symbol) (hstock : stock.symbol = symbol) :
    buy_stock_loop symbol price quantity visited (pre ++ stock :: post)
      = some (visited ++ pre ++
          { stock with quantity := stock.quantity + quantity, price := price } :: post) := by
  induction pre generalizing visited with
  | nil => simp [buy_stock_loop, hstock]
  | cons a rest ih =>
    have ha : a.symbol ≠ symbol := hpre a (List.mem_cons_self _ _)
    have step := ih (visited ++ [a]) (fun x hx => hpre x (List.mem_cons_of_mem _ hx))
    simp only [List.cons_append, buy_stock_loop, if_neg ha]
    simpa using step

theorem buy_stock_of_split (symbol : Symbol) (price : Price) (quantity : Quantity)
    (pre : List Stock) (stock : Stock) (post : List Stock)
    (hpre : ∀ x ∈ pre, x.symbol ≠ symbol) (hstock : stock.symbol = symbol) :
    buy_stock (pre ++ stock :: post) symbol price quantity
      = (pre ++ { stock with quantity := stock.quantity + quantity, price := price } :: post,
          [Msg.bought quantity symbol price]) := by
  simp [buy_stock, buy_stock_loop_some symbol price quantity [] pre stock post hpre hstock]

theorem buy_stock_of_absent (symbol : Symbol) (price : Price) (quantity : Quantity)
    (portfolio : Portfolio) (h : ∀ x ∈ portfolio, x.symbol ≠ symbol) :
    buy_stock portfolio symbol price quantity
      = (portfolio ++ [{ symbol := symbol, price := price, quantity := quantity }],
          [Msg.bought quantity symbol price]) := by
  simp [buy_stock, buy_stock_loop_none symbol price quantity [] portfolio h]

/-- Replacing the element after `pre` keeps the length and every other position. -/
theorem positions_of_split (pre post : List Stock) (old new : Stock) :
    (pre ++ new :: post).length = (pre ++ old :: post).length ∧
    (pre ++ old :: post)[pre.length]? = some old ∧
    (pre ++ new :: post)[pre.length]? = some new ∧
    ∀ j, j ≠ pre.length → (pre ++ new :: post)[j]? = (pre ++ old :: post)[j]? := by
  refine ⟨by simp, ?_, ?_, ?_⟩
  · rw [List.getElem?_append_right (Nat.le_refl _)]; simp
  · rw [List.getElem?_append_right (Nat.le_refl _)]; simp
  intro j hj
  rcases Nat.lt_or_gt_of_ne hj with hlt | hgt
  · rw [List.getElem?_append_left hlt, List.getElem?_append_left hlt]
  · rw [List.getElem?_append_right (Nat.le_of_lt hgt),
      List.getElem?_append_right (Nat.le_of_lt hgt)]
    obtain ⟨k, hk⟩ : ∃ k, j - pre.length = k + 1 := ⟨j - pre.length - 1, by omega⟩
    rw [hk]
    simp

theorem no_match_before (symbol : Symbol) (pre : List Stock) (rest : List Stock)
    (hpre : ∀ x ∈ pre, x.symbol ≠ symbol) :
    ∀ j, j < pre.length → ∀ st, (pre ++ rest)[j]? = some st → st.symbol ≠ symbol := by
  intro j hj st hst
  rw [List.getElem?_append_left hj] at hst
  exact hpre st (List.getElem?_mem hst)

theorem sell_stock_loop_absent (symbol : Symbol) (quantity : Quantity)
    (visited remaining : List Stock) (h : ∀ x ∈ remaining, x.symbol ≠ symbol) :
    sell_stock_loop symbol quantity visited remaining
      = (visited ++ remaining, [Msg.notFound symbol]) := by
  induction remaining generalizing visited with
  | nil => simp [sell_stock_loop]
  | cons a rest ih =>
    have ha : a.symbol ≠ symbol := h a (List.mem_cons_self _ _)
    have step := ih (visited ++ [a]) (fun x hx => h x (List.mem_cons_of_mem _ hx))
    simp only [sell_stock_loop, if_neg ha]
    simpa using step

theorem sell_stock_loop_split (symbol : Symbol) (quantity : Quantity)
    (visited pre : List Stock) (stock : Stock) (post : List Stock)
    (hpre : ∀ x ∈ pre, x.symbol ≠ symbol) (hstock : stock.symbol = symbol) :
    sell_stock_loop symbol quantity visited (pre ++ stock :: post)
      = if stock.quantity ≥ quantity then
          if stock.quantity - quantity = 0 then
            (erase_symbol
              (visited ++ pre ++ { stock with quantity := stock.quantity - quantity } :: post)
              symbol, [Msg.sold quantity symbol])
          else
            (visited ++ pre ++ { stock with quantity := stock.quantity - quantity } :: post,
              [Msg.sold quantity symbol])
        else
          (visited ++ pre ++ stock :: post, [Msg.notEnough symbol]) := by
  induction pre generalizing visited with
  | nil => simp [sell_stock_loop, hstock]
  | cons a rest ih =>
    have ha : a.symbol ≠ symbol := hpre a (List.mem_cons_self _ _)
    have step := ih (visited ++ [a]) (fun x hx => hpre x (List.mem_cons_of_mem _ hx))
    simp only [List.cons_append, sell_stock_loop, if_neg ha]
    simpa using step

theorem sell_stock_of_absent (symbol : Symbol) (quantity : Quantity)
    (portfolio : Portfolio) (h : ∀ x ∈ portfolio, x.symbol ≠ symbol) :
    sell_stock portfolio symbol quantity = (portfolio, [Msg.notFound symbol]) := by
  simp [sell_stock, sell_stock_loop_absent symbol quantity [] portfolio h]

theorem sell_stock_of_split (symbol : Symbol) (quantity : Quantity)
    (pre : List Stock) (stock : Stock) (post : List Stock)
    (hpre : ∀ x ∈ pre, x.symbol ≠ symbol) (hstock : stock.symbol = symbol) :
    sell_stock (pre ++ stock :: post) symbol quantity
      = if stock.quantity ≥ quantity then
          if stock.quantity - quantity = 0 then
            (erase_symbol
              (pre ++ { stock with quantity := stock.quantity - quantity } :: post)
              symbol, [Msg.sold quantity symbol])
          else
            (pre ++ { stock with quantity := stock.quantity - quantity } :: post,
              [Msg.sold quantity symbol])
        else
          (pre ++ stock :: post, [Msg.notEnough symbol]) := by
  simpa using sell_stock_loop_split symbol quantity [] pre stock post hpre hstock

theorem not_mem_erase_symbol (portfolio : Portfolio) (symbol : Symbol) :
    ∀ x ∈ erase_symbol portfolio symbol, x.symbol ≠ symbol := by
  intro x hx
  simpa [erase_symbol] using (List.mem_filter.mp hx).2

theorem mem_of_mem_erase_symbol (portfolio : Portfolio) (symbol : Symbol) (x : Stock)
    (hx : x ∈ erase_symbol portfolio symbol) : x ∈ portfolio :=
  (List.mem_filter.mp hx).1

theorem symbols_of_update (pre post : List Stock) (stock : Stock) (price : Price)
    (quantity : Quantity) :
    (pre ++ { stock with quantity := quantity, price := price } :: post).map Stock.symbol
      = (pre ++ stock :: post).map Stock.symbol := by
  simp

theorem unique_erase_symbol (portfolio : Portfolio) (symbol : Symbol)
    (h : UniqueBySymbol portfolio) : UniqueBySymbol (erase_symbol portfolio symbol) := by
  unfold UniqueBySymbol erase_symbol at *
  exact List.Nodup.sublist (List.Sublist.map _ (List.filter_sublist _)) h

theorem unique_buy_stock (portfolio : Portfolio) (symbol : Symbol) (price : Price)
    (quantity : Quantity) (h : UniqueBySymbol portfolio) :
    UniqueBySymbol (buy_stock portfolio symbol price quantity).1 := by
  by_cases hex : ∃ st ∈ portfolio, st.symbol = symbol
  · obtain ⟨pre, stock, post, rfl, hpre, hstock⟩ := exists_first_of_mem symbol portfolio hex
    rw [buy_stock_of_split symbol price quantity pre stock post hpre hstock]
    unfold UniqueBySymbol at *
    rw [symbols_of_update]
    exact h
  · have habs : ∀ x ∈ portfolio, x.symbol ≠ symbol :=
      fun x hx hs => hex ⟨x, hx, hs⟩
    rw [buy_stock_of_absent symbol price quantity portfolio habs]
    unfold UniqueBySymbol at *
    simp only [List.map_append, List.map_cons, List.map_nil]
    refine List.Nodup.append h (List.nodup_singleton _) ?_
    intro a ha hsingle
    obtain ⟨x, hx, rfl⟩ := List.mem_map.mp ha
    exact habs x hx (List.mem_singleton.mp hsingle)

theorem unique_sell_stock (portfolio : Portfolio) (symbol : Symbol)
    (quantity : Quantity) (h : UniqueBySymbol portfolio) :
    UniqueBySymbol (sell_stock portfolio symbol quantity).1 := by
  by_cases hex : ∃ st ∈ portfolio, st.symbol = symbol
  · obtain ⟨pre, stock, post, rfl, hpre, hstock⟩ := exists_first_of_mem symbol portfolio hex
    have hupd : UniqueBySymbol
        (pre ++ { stock with quantity := stock.quantity - quantity } :: post) := by
      unfold UniqueBySymbol at *
      rw [symbols_of_update]
      exact h
    rw [sell_stock_of_split symbol quantity pre stock post hpre hstock]
    split_ifs
    · exact unique_erase_symbol _ symbol hupd
    · exact hupd
    · exact h
  · have habs : ∀ x ∈ portfolio, x.symbol ≠ symbol :=
      fun x hx hs => hex ⟨x, hx, hs⟩
    rw [sell_stock_of_absent symbol quantity portfolio habs]
    exact h

theorem unique_run_calls (calls : List Call) (portfolio : Portfolio)
    (h : UniqueBySymbol portfolio) : UniqueBySymbol (run_calls portfolio calls) := by
  induction calls generalizing portfolio with
  | nil => exact h
  | cons call rest ih =>
    have hstep : UniqueBySymbol (Call.run portfolio call) := by
      cases call with
      | buy symbol price quantity => exact unique_buy_stock portfolio symbol price quantity h
      | sell symbol quantity => exact unique_sell_stock portfolio symbol quantity h
    exact ih _ hstep

theorem invariant_buy_stock (portfolio : Portfolio) (symbol : Symbol) (price : Price)
    (quantity : Quantity) (hq : 0 < quantity) (h : HoldingInvariant portfolio) :
    HoldingInvariant (buy_stock portfolio symbol price quantity).1 := by
  by_cases hex : ∃ st ∈ portfolio, st.symbol = symbol
  · obtain ⟨pre, stock, post, rfl, hpre, hstock⟩ := exists_first_of_mem symbol portfolio hex
    rw [buy_stock_of_split symbol price quantity pre stock post hpre hstock]
    have hs := h stock (by simp)
    intro x hx
    rcases List.mem_append.mp hx with hmem | hmem
    · exact h x (by simp [hmem])
    · rcases List.mem_cons.mp hmem with rfl | hmem'
      · have hpos : 0 < stock.quantity + quantity := add_pos_of_nonneg_of_pos hs.1 hq
        exact ⟨le_of_lt hpos, ne_of_gt hpos⟩
      · exact h x (by simp [hmem'])
  · have habs : ∀ x ∈ portfolio, x.symbol ≠ symbol :=
      fun x hx hs => hex ⟨x, hx, hs⟩
    rw [buy_stock_of_absent symbol price quantity portfolio habs]
    intro x hx
    rcases List.mem_append.mp hx with hmem | hmem
    · exact h x hmem
    · rw [List.mem_singleton.mp hmem]
      exact ⟨le_of_lt hq, ne_of_gt hq⟩

theorem invariant_sell_stock (portfolio : Portfolio) (symbol : Symbol)
    (quantity : Quantity) (h : HoldingInvariant portfolio) :
    HoldingInvariant (sell_stock portfolio symbol quantity).1 := by
  by_cases hex : ∃ st ∈ portfolio, st.symbol = symbol
  · obtain ⟨pre, stock, post, rfl, hpre, hstock⟩ := exists_first_of_mem symbol portfolio hex
    rw [sell_stock_of_split symbol quantity pre stock post hpre hstock]
    split_ifs with hge hzero
    · intro x hx
      have hne := not_mem_erase_symbol _ symbol x hx
      have hin := mem_of_mem_erase_symbol _ symbol x hx
      rcases List.mem_append.mp hin with hmem | hmem
      · exact h x (by simp [hmem])
      · rcases List.mem_cons.mp hmem with rfl | hmem'
        · exact absurd hstock hne
        · exact h x (by simp [hmem'])
    · intro x hx
      rcases List.mem_append.mp hx with hmem | hmem
      · exact h x (by simp [hmem])
      · rcases List.mem_cons.mp hmem with rfl | hmem'
        · exact ⟨sub_nonneg.mpr hge, hzero⟩
        · exact h x (by simp [hmem'])
    · exact h
  · have habs : ∀ x ∈ portfolio, x.symbol ≠ symbol :=
      fun x hx hs => hex ⟨x, hx, hs⟩
    rw [sell_stock_of_absent symbol quantity portfolio habs]
    exact h

theorem invariant_run_calls (calls : List Call) (portfolio : Portfolio)
    (hbuys : ∀ s p q, Call.buy s p q ∈ calls → 0 < q)
    (h : HoldingInvariant portfolio) : HoldingInvariant (run_calls portfolio calls) := by
  induction calls generalizing portfolio with
  | nil => exact h
  | cons call rest ih =>
    have hstep : HoldingInvariant (Call.run portfolio call) := by
      cases call with
      | buy symbol price quantity =>
        exact invariant_buy_stock portfolio symbol price quantity
          (hbuys symbol price quantity (List.mem_cons_self _ _)) h
      | sell symbol quantity => exact invariant_sell_stock portfolio symbol quantity h
    exact ih _ (fun s p q hmem => hbuys s p q (List.mem_cons_of_mem _ hmem)) hstep

theorem erase_symbol_eq_other_holdings (portfolio : Portfolio) (symbol : Symbol) :
    erase_symbol portfolio symbol = other_holdings portfolio symbol := by
  unfold erase_symbol other_holdings
  congr 1
  funext st
  simp

theorem other_holdings_of_absent (portfolio : Portfolio) (symbol : Symbol)
    (h : ∀ x ∈ portfolio, x.symbol ≠ symbol) : other_holdings portfolio symbol = portfolio := by
  unfold other_holdings
  exact List.filter_eq_self.mpr (fun x hx => by simpa using h x hx)

theorem other_holdings_of_split (pre post : List Stock) (stock : Stock) (symbol : Symbol)
    (hstock : stock.symbol = symbol) :
    other_holdings (pre ++ stock :: post) symbol
      = other_holdings pre symbol ++ other_holdings post symbol := by
  unfold other_holdings
  simp [List.filter_cons, hstock]

theorem other_holdings_idem (portfolio : Portfolio) (symbol : Symbol) :
    other_holdings (other_holdings portfolio symbol) symbol = other_holdings portfolio symbol := by
  unfold other_holdings
  simp

theorem other_holdings_buy_stock (portfolio : Portfolio) (symbol : Symbol) (price : Price)
    (quantity : Quantity) :
    other_holdings (buy_stock portfolio symbol price quantity).1 symbol
      = other_holdings portfolio symbol := by
  by_cases hex : ∃ st ∈ portfolio, st.symbol = symbol
  · obtain ⟨pre, stock, post, rfl, hpre, hstock⟩ := exists_first_of_mem symbol portfolio hex
    rw [buy_stock_of_split symbol price quantity pre stock post hpre hstock]
    show other_holdings
        (pre ++ { stock with quantity := stock.quantity + quantity, price := price } :: post)
        symbol = other_holdings (pre ++ stock :: post) symbol
    rw [other_holdings_of_split pre post stock symbol hstock,
      other_holdings_of_split pre post
        { stock with quantity := stock.quantity + quantity, price := price } symbol hstock]
  · have habs : ∀ x ∈ portfolio, x.symbol ≠ symbol :=
      fun x hx hs => hex ⟨x, hx, hs⟩
    rw [buy_stock_of_absent symbol price quantity portfolio habs]
    have hnew := other_holdings_of_split portfolio []
      { symbol := symbol, price := price, quantity := quantity } symbol rfl
    rw [hnew]
    simp [other_holdings]

theorem other_holdings_sell_stock (portfolio : Portfolio) (symbol : Symbol)
    (quantity : Quantity) :
    other_holdings (sell_stock portfolio symbol quantity).1 symbol
      = other_holdings portfolio symbol := by
  by_cases hex : ∃ st ∈ portfolio, st.symbol = symbol
  · obtain ⟨pre, stock, post, rfl, hpre, hstock⟩ := exists_first_of_mem symbol portfolio hex
    rw [sell_stock_of_split symbol quantity pre stock post hpre hstock]
    have hupd : other_holdings
        (pre ++ { stock with quantity := stock.quantity - quantity } :: post) symbol
        = other_holdings (pre ++ stock :: post) symbol := by
      rw [other_holdings_of_split pre post stock symbol hstock,
        other_holdings_of_split pre post
          { stock with quantity := stock.quantity - quantity } symbol hstock]
    split_ifs
    · rw [erase_symbol_eq_other_holdings, other_holdings_idem]
      exact hupd
    · exact hupd
    · rfl
  · have habs : ∀ x ∈ portfolio, x.symbol ≠ symbol :=
      fun x hx hs => hex ⟨x, hx, hs⟩
    rw [sell_stock_of_absent symbol quantity portfolio habs]

theorem total_value_append (front back : Portfolio) :
    calculate_total_value (front ++ back)
      = calculate_total_value front + calculate_total_value back := by
  unfold calculate_total_value
  rw [foldl_total_value, foldl_total_value, foldl_total_value]
  simp

theorem total_value_cons (stock : Stock) (rest : Portfolio) :
    calculate_total_value (stock :: rest)
      = stock.price * (stock.quantity : Price) + calculate_total_value rest := by
  unfold calculate_total_value
  rw [foldl_total_value, foldl_total_value]
  simp

theorem unique_split (portfolio : Portfolio) (stock : Stock)
    (hu : UniqueBySymbol portfolio) (hmem : stock ∈ portfolio) :
    ∃ pre post, portfolio = pre ++ stock :: post ∧
      (∀ x ∈ pre, x.symbol ≠ stock.symbol) ∧ (∀ x ∈ post, x.symbol ≠ stock.symbol) := by
  obtain ⟨pre, post, rfl⟩ := List.append_of_mem hmem
  refine ⟨pre, post, rfl, ?_, ?_⟩
  · intro x hx heq
    unfold UniqueBySymbol at hu
    rw [List.map_append, List.map_cons] at hu
    have hdis := (List.nodup_append.mp hu).2.2
    exact hdis (List.mem_map_of_mem Stock.symbol hx)
      (by rw [heq]; exact List.mem_cons_self _ _)
  · intro x hx heq
    unfold UniqueBySymbol at hu
    rw [List.map_append, List.map_cons] at hu
    have hnd := (List.nodup_append.mp hu).2.1
    have hnot := (List.nodup_cons.mp hnd).1
    exact hnot (by rw [← heq]; exact List.mem_map_of_mem Stock.symbol hx)

theorem mem_first_occurrences (symbols : List Symbol) (a : Symbol) :
    a ∈ first_occurrences symbols ↔ a ∈ symbols := by
  induction symbols with
  | nil => simp [first_occurrences]
  | cons s rest ih =>
    simp only [first_occurrences, List.mem_cons, List.mem_filter, ih]
    by_cases has : a = s
    · simp [has]
    · simp [has]

theorem nodup_first_occurrences (symbols : List Symbol) :
    (first_occurrences symbols).Nodup := by
  induction symbols with
  | nil => simp [first_occurrences]
  | cons s rest ih =>
    simp only [first_occurrences]
    refine List.nodup_cons.mpr ⟨?_, List.Nodup.filter _ ih⟩
    intro hmem
    simpa using (List.mem_filter.mp hmem).2

theorem first_occurrences_cons (s : Symbol) (rest : List Symbol) :
    first_occurrences (s :: rest)
      = s :: (first_occurrences rest).filter (fun t => decide (t ≠ s)) := rfl

theorem first_occurrences_concat (symbols : List Symbol) (a : Symbol) :
    first_occurrences (symbols ++ [a])
      = if a ∈ symbols then first_occurrences symbols else first_occurrences symbols ++ [a] := by
  induction symbols with
  | nil => simp [first_occurrences]
  | cons s rest ih =>
    rw [List.cons_append, first_occurrences_cons, first_occurrences_cons, ih]
    by_cases has : a = s
    · subst has
      by_cases hmem : a ∈ rest
      · simp [hmem]
      · simp [hmem]
    · by_cases hmem : a ∈ rest
      · simp [hmem, has]
      · simp [hmem, has, List.filter_cons]

theorem buys_of_concat (buys : List Buy) (b : Buy) (s : Symbol) :
    buys_of (buys ++ [b]) s
      = if b.symbol = s then buys_of buys s ++ [b] else buys_of buys s := by
  unfold buys_of
  by_cases h : b.symbol = s
  · simp [List.filter_cons, h]
  · simp [List.filter_cons, h]

theorem expected_holding_concat_ne (buys : List Buy) (b : Buy) (s : Symbol)
    (h : s ≠ b.symbol) : expected_holding (buys ++ [b]) s = expected_holding buys s := by
  unfold expected_holding total_bought last_price
  rw [buys_of_concat, if_neg (Ne.symm h)]

theorem expected_holding_concat_eq (buys : List Buy) (b : Buy) :
    expected_holding (buys ++ [b]) b.symbol
      = { symbol := b.symbol, price := b.price,
          quantity := (expected_holding buys b.symbol).quantity + b.quantity } := by
  unfold expected_holding total_bought last_price
  rw [buys_of_concat, if_pos rfl]
  simp

theorem total_bought_of_absent (buys : List Buy) (s : Symbol)
    (h : s ∉ buys.map Buy.symbol) : total_bought buys s = 0 := by
  have hnil : buys_of buys s = [] := by
    unfold buys_of
    rw [List.filter_eq_nil_iff]
    intro b hb hs
    exact h (List.mem_map.mpr ⟨b, hb, by simpa using hs⟩)
  simp [total_bought, hnil]

theorem buy_stock_map_of_mem (symbols : List Symbol) (f : Symbol → Stock)
    (hf : ∀ s, (f s).symbol = s) (hnd : symbols.Nodup)
    (a : Symbol) (price : Price) (quantity : Quantity) (ha : a ∈ symbols) :
    (buy_stock (symbols.map f) a price quantity).1
      = symbols.map (fun s =>
          if s = a then
            { symbol := a, price := price, quantity := (f a).quantity + quantity }
          else f s) := by
  obtain ⟨pre, post, rfl⟩ := List.append_of_mem ha
  have hparts := List.nodup_append.mp hnd
  have hpre : ∀ s ∈ pre, s ≠ a := fun s hs heq =>
    hparts.2.2 hs (by rw [heq]; exact List.mem_cons_self _ _)
  have hpost : ∀ s ∈ post, s ≠ a := fun s hs heq =>
    (List.nodup_cons.mp hparts.2.1).1 (by rw [← heq]; exact hs)
  have hpre' : ∀ x ∈ pre.map f, x.symbol ≠ a := by
    intro x hx
    obtain ⟨s, hs, rfl⟩ := List.mem_map.mp hx
    rw [hf s]
    exact hpre s hs
  rw [List.map_append, List.map_cons,
    buy_stock_of_split a price quantity (pre.map f) (f a) (post.map f) hpre' (hf a)]
  rw [List.map_append, List.map_cons, if_pos rfl, hf a]
  have hmap : ∀ l : List Symbol, (∀ s ∈ l, s ≠ a) →
      l.map f = l.map (fun s =>
        if s = a then
          { symbol := a, price := price, quantity := (f a).quantity + quantity }
        else f s) := by
    intro l hl
    exact List.map_congr_left (fun s hs => by rw [if_neg (hl s hs)])
  rw [← hmap pre hpre, ← hmap post hpost]

theorem run_calls_concat (portfolio : Portfolio) (calls : List Call) (call : Call) :
    run_calls portfolio (calls ++ [call]) = Call.run (run_calls portfolio calls) call := by
  simp [run_calls, List.foldl_append]

theorem run_buys_eq_expected (buys : List Buy) :
    run_calls [] (buys.map Buy.call) = expected_portfolio buys := by
  induction buys using List.reverseRecOn with
  | nil => rfl
  | append_singleton l b ih =>
    rw [List.map_append, List.map_cons, List.map_nil, run_calls_concat, ih]
    show (buy_stock (expected_portfolio l) b.symbol b.price b.quantity).1
      = expected_portfolio (l ++ [b])
    unfold expected_portfolio
    rw [List.map_append, List.map_cons, List.map_nil, first_occurrences_concat]
    by_cases hmem : b.symbol ∈ l.map Buy.symbol
    · rw [if_pos hmem,
        buy_stock_map_of_mem _ (expected_holding l) (fun _ => rfl)
          (nodup_first_occurrences _) b.symbol b.price b.quantity
          ((mem_first_occurrences _ _).mpr hmem)]
      refine List.map_congr_left (fun s _ => ?_)
      by_cases hs : s = b.symbol
      · rw [if_pos hs, hs, expected_holding_concat_eq]
      · rw [if_neg hs, expected_holding_concat_ne l b s hs]
    · have habs : ∀ x ∈ (first_occurrences (l.map Buy.symbol)).map (expected_holding l),
          x.symbol ≠ b.symbol := by
        intro x hx heq
        obtain ⟨s, hs, rfl⟩ := List.mem_map.mp hx
        have hs' : s ∈ l.map Buy.symbol := (mem_first_occurrences _ _).mp hs
        have : s = b.symbol := heq
        exact hmem (this ▸ hs')
      rw [if_neg hmem, buy_stock_of_absent b.symbol b.price b.quantity _ habs,
        List.map_append, List.map_cons, List.map_nil, expected_holding_concat_eq]
      have hzero : (expected_holding l b.symbol).quantity = 0 :=
        total_bought_of_absent l b.symbol hmem
      rw [hzero, zero_add]
      dsimp only
      congr 1
      refine List.map_congr_left (fun s hs => ?_)
      have hs' : s ∈ l.map Buy.symbol := (mem_first_occurrences _ _).mp hs
      have hne : s ≠ b.symbol := fun heq => hmem (heq ▸ hs')
      rw [expected_holding_concat_ne l b s hne]

theorem last_price_of_mem (buys : List Buy) (s : Symbol)
    (h : s ∈ buys.map Buy.symbol) :
    last_price buys s = some (expected_holding buys s).price := by
  obtain ⟨b, hb, hs⟩ := List.mem_map.mp h
  have hin : b ∈ buys_of buys s := by
    unfold buys_of
    exact List.mem_filter.mpr ⟨hb, by simpa using hs⟩
  have hne : buys_of buys s ≠ [] := List.ne_nil_of_mem hin
  obtain ⟨front, lastBuy, hsplit⟩ : ∃ front lastBuy, buys_of buys s = front ++ [lastBuy] :=
    ⟨(buys_of buys s).dropLast, (buys_of buys s).getLast hne,
      (List.dropLast_append_getLast hne).symm⟩
  simp [expected_holding, last_price, hsplit]

theorem wrap_int_of_in_range (x : Int) (h : in_int_range x) : wrap_int x = x := by
  unfold wrap_int
  unfold in_int_range at h
  omega

theorem buy_stock_machine_loop_none (symbol : Symbol) (price : Price) (quantity : Quantity)
    (visited remaining : List Stock) (h : ∀ x ∈ remaining, x.symbol ≠ symbol) :
    buy_stock_machine_loop symbol price quantity visited remaining = none := by
  induction remaining generalizing visited with
  | nil => rfl
  | cons a rest ih =>
    have ha : a.symbol ≠ symbol := h a (List.mem_cons_self _ _)
    simp only [buy_stock_machine_loop, if_neg ha]
    exact ih _ (fun x hx => h x (List.mem_cons_of_mem _ hx))

theorem buy_stock_machine_loop_some (symbol : Symbol) (price : Price) (quantity : Quantity)
    (visited pre : List Stock) (stock : Stock) (post : List Stock)
    (hpre : ∀ x ∈ pre, x.symbol ≠ symbol) (hstock : stock.symbol = symbol) :
    buy_stock_machine_loop symbol price quantity visited (pre ++ stock :: post)
      = some (visited ++ pre ++
          { stock with quantity := wrap_int (stock.quantity + quantity), price := price }
            :: post) := by
  induction pre generalizing visited with
  | nil => simp [buy_stock_machine_loop, hstock]
  | cons a rest ih =>
    have ha : a.symbol ≠ symbol := hpre a (List.mem_cons_self _ _)
    have step := ih (visited ++ [a]) (fun x hx => hpre x (List.mem_cons_of_mem _ hx))
    simp only [List.cons_append, buy_stock_machine_loop, if_neg ha]
    simpa using step

theorem buy_stock_machine_of_split (symbol : Symbol) (price : Price) (quantity : Quantity)
    (pre : List Stock) (stock : Stock) (post : List Stock)
    (hpre : ∀ x ∈ pre, x.symbol ≠ symbol) (hstock : stock.symbol = symbol) :
    buy_stock_machine (pre ++ stock :: post) symbol price quantity
      = (pre ++ { stock with quantity := wrap_int (stock.quantity + quantity),
                             price := price } :: post,
          [Msg.bought quantity symbol price]) := by
  simp [buy_stock_machine,
    buy_stock_machine_loop_some symbol price quantity [] pre stock post hpre hstock]

theorem buy_stock_machine_of_absent (symbol : Symbol) (price : Price) (quantity : Quantity)
    (portfolio : Portfolio) (h : ∀ x ∈ portfolio, x.symbol ≠ symbol) :
    buy_stock_machine portfolio symbol price quantity
      = (portfolio ++ [{ symbol := symbol, price := price, quantity := quantity }],
          [Msg.bought quantity symbol price]) := by
  simp [buy_stock_machine, buy_stock_machine_loop_none symbol price quantity [] portfolio h]

theorem find_of_split (symbol : Symbol) (pre : List Stock) (stock : Stock)
    (post : List Stock) (hpre : ∀ x ∈ pre, x.symbol ≠ symbol) (hstock : stock.symbol = symbol) :
    (pre ++ stock :: post).find? (fun st => decide (st.symbol = symbol)) = some stock := by
  induction pre with
  | nil => simp [List.find?, hstock]
  | cons a rest ih =>
    have ha : a.symbol ≠ symbol := hpre a (List.mem_cons_self _ _)
    simpa [List.find?, ha] using ih (fun x hx => hpre x (List.mem_cons_of_mem _ hx))

/-- Without overflow the 32-bit `buy_stock` and the one on unbounded integers
agree. -/
theorem buy_stock_machine_eq_buy_stock (portfolio : Portfolio) (symbol : Symbol)
    (price : Price) (quantity : Quantity)
    (hrange : ∀ stock, portfolio.find? (fun st => decide (st.symbol = symbol)) = some stock →
      in_int_range (stock.quantity + quantity)) :
    buy_stock_machine portfolio symbol price quantity
      = buy_stock portfolio symbol price quantity := by
  by_cases hex : ∃ st ∈ portfolio, st.symbol = symbol
  · obtain ⟨pre, stock, post, rfl, hpre, hstock⟩ := exists_first_of_mem symbol portfolio hex
    rw [buy_stock_machine_of_split symbol price quantity pre stock post hpre hstock,
      buy_stock_of_split symbol price quantity pre stock post hpre hstock,
      wrap_int_of_in_range _ (hrange stock (find_of_split symbol pre stock post hpre hstock))]
  · have habs : ∀ x ∈ portfolio, x.symbol ≠ symbol :=
      fun x hx hs => hex ⟨x, hx, hs⟩
    rw [buy_stock_machine_of_absent symbol price quantity portfolio habs,
      buy_stock_of_absent symbol price quantity portfolio habs]

theorem sell_stock_machine_loop_cons (ref : SymbolRef) (quantity : Quantity)
    (visited : List Stock) (stock : Stock) (rest : List Stock) :
    sell_stock_machine_loop ref quantity visited (stock :: rest)
      = if stock.symbol = ref.read (visited ++ stock :: rest) then
          if stock.quantity ≥ quantity then
            if wrap_int (stock.quantity - quantity) = 0 then
              (erase_remove_if
                (visited ++
                  { stock with quantity := wrap_int (stock.quantity - quantity) } :: rest)
                ref,
               [Msg.sold quantity (ref.read
                (visited ++
                  { stock with quantity := wrap_int (stock.quantity - quantity) } :: rest))])
            else
              (visited ++
                  { stock with quantity := wrap_int (stock.quantity - quantity) } :: rest,
               [Msg.sold quantity (ref.read
                (visited ++
                  { stock with quantity := wrap_int (stock.quantity - quantity) } :: rest))])
          else
            (visited ++ stock :: rest,
              [Msg.notEnough (ref.read (visited ++ stock :: rest))])
        else
          sell_stock_machine_loop ref quantity (visited ++ [stock]) rest := rfl

theorem sell_stock_machine_loop_split (ref : SymbolRef) (quantity : Quantity)
    (visited pre : List Stock) (stock : Stock) (post : List Stock)
    (hpre : ∀ x ∈ pre, x.symbol ≠ ref.read (visited ++ (pre ++ stock :: post)))
    (hstock : stock.symbol = ref.read (visited ++ (pre ++ stock :: post))) :
    sell_stock_machine_loop ref quantity visited (pre ++ stock :: post)
      = if stock.quantity ≥ quantity then
          if wrap_int (stock.quantity - quantity) = 0 then
            (erase_remove_if
              (visited ++ (pre ++
                { stock with quantity := wrap_int (stock.quantity - quantity) } :: post))
              ref,
             [Msg.sold quantity (ref.read
              (visited ++ (pre ++
                { stock with quantity := wrap_int (stock.quantity - quantity) } :: post)))])
          else
            (visited ++ (pre ++
                { stock with quantity := wrap_int (stock.quantity - quantity) } :: post),
             [Msg.sold quantity (ref.read
              (visited ++ (pre ++
                { stock with quantity := wrap_int (stock.quantity - quantity) } :: post)))])
        else
          (visited ++ (pre ++ stock :: post),
            [Msg.notEnough (ref.read (visited ++ (pre ++ stock :: post)))]) := by
  induction pre generalizing visited with
  | nil =>
    simp only [List.nil_append] at hstock ⊢
    rw [sell_stock_machine_loop_cons, if_pos hstock]
  | cons a rest ih =>
    have ha : a.symbol ≠ ref.read (visited ++ a :: (rest ++ stock :: post)) :=
      hpre a (List.mem_cons_self _ _)
    have hassoc : ∀ tail : List Stock,
        (visited ++ [a]) ++ (rest ++ tail) = visited ++ (a :: rest ++ tail) := by
      intro tail
      simp
    have step := ih (visited ++ [a])
      (fun x hx => by rw [hassoc]; exact hpre x (List.mem_cons_of_mem _ hx))
      (by rw [hassoc]; exact hstock)
    rw [hassoc, hassoc] at step
    rw [List.cons_append, sell_stock_machine_loop_cons, if_neg ha]
    exact step

theorem run_buys_machine_concat (portfolio : Portfolio) (buys : List Buy) (b : Buy) :
    run_buys_machine portfolio (buys ++ [b])
      = (buy_stock_machine (run_buys_machine portfolio buys) b.symbol b.price b.quantity).1 := by
  simp [run_buys_machine, List.foldl_append]

theorem total_bought_concat (buys : List Buy) (b : Buy) :
    total_bought (buys ++ [b]) b.symbol = total_bought buys b.symbol + b.quantity := by
  unfold total_bought
  rw [buys_of_concat, if_pos rfl]
  simp

/-- When no running total leaves the `int` range, the 32-bit run of buys is the
portfolio of the specification. -/
theorem run_buys_machine_eq_expected (buys : List Buy)
    (hrange : ∀ n s, in_int_range (total_bought (buys.take n) s)) :
    run_buys_machine [] buys = expected_portfolio buys := by
  induction buys using List.reverseRecOn with
  | nil => rfl
  | append_singleton l b ih =>
    have hl : ∀ n s, in_int_range (total_bought (l.take n) s) := by
      intro n s
      by_cases hn : n ≤ l.length
      · have h := hrange n s
        rwa [List.take_append_of_le_length hn] at h
      · have h := hrange l.length s
        rw [List.take_append_of_le_length (Nat.le_refl _)] at h
        rw [List.take_of_length_le (Nat.le_of_lt (Nat.lt_of_not_le hn))]
        rwa [List.take_of_length_le (Nat.le_refl _)] at h
    have hall : in_int_range (total_bought (l ++ [b]) b.symbol) := by
      have h := hrange (l ++ [b]).length b.symbol
      rwa [List.take_of_length_le (Nat.le_refl _)] at h
    rw [run_buys_machine_concat, ih hl]
    have hstep : ∀ st,
        (expected_portfolio l).find? (fun x => decide (x.symbol = b.symbol)) = some st →
        in_int_range (st.quantity + b.quantity) := by
      intro st hfind
      obtain ⟨before, after, hsplit, _, hsym⟩ :=
        split_of_find b.symbol (expected_portfolio l) st hfind
      have hst : st ∈ expected_portfolio l := by rw [hsplit]; simp
      obtain ⟨s, _, rfl⟩ := List.mem_map.mp hst
      have hs : s = b.symbol := hsym
      rw [hs]
      show in_int_range (total_bought l b.symbol + b.quantity)
      rw [← total_bought_concat]
      exact hall
    rw [buy_stock_machine_eq_buy_stock _ _ _ _ hstep]
    have hideal := run_buys_eq_expected (l ++ [b])
    rw [List.map_append, List.map_cons, List.map_nil, run_calls_concat,
      run_buys_eq_expected l] at hideal
    exact hideal

theorem sample_buys_in_range :
    ∀ n s, in_int_range (total_bought (sample_buys.take n) s) := by
  intro n s
  unfold in_int_range total_bought buys_of sample_buys
  rcases n with _ | _ | _ | n <;> simp [List.filter_cons] <;> split_ifs <;> simp

/-! ### The machine-level `sell_stock` on a symbol held outside the portfolio -/

theorem take_set_of_le (slots : List Stock) (stock : Stock) (index count : Nat)
    (h : count ≤ index) : (slots.set index stock).take count = slots.take count := by
  apply List.ext_getElem?
  intro i
  by_cases hi : i < count
  · rw [List.getElem?_take_of_lt hi, List.getElem?_take_of_lt hi]
    exact List.getElem?_set_ne (by omega)
  · rw [List.getElem?_eq_none (by simp; omega), List.getElem?_eq_none (by simp; omega)]

theorem erase_symbol_cons_of_eq (stock : Stock) (rest : List Stock) (symbol : Symbol)
    (h : stock.symbol = symbol) :
    erase_symbol (stock :: rest) symbol = erase_symbol rest symbol := by
  simp [erase_symbol, List.filter_cons, h]

theorem erase_symbol_cons_of_ne (stock : Stock) (rest : List Stock) (symbol : Symbol)
    (h : stock.symbol ≠ symbol) :
    erase_symbol (stock :: rest) symbol = stock :: erase_symbol rest symbol := by
  simp [erase_symbol, List.filter_cons, h]

theorem remove_if_loop_value (symbol : Symbol) (steps : Nat) :
    ∀ (slots : List Stock) (result first : Nat), result < first →
      first + steps = slots.length →
      (remove_if_loop (SymbolRef.value symbol) steps slots result first).1.take
          (remove_if_loop (SymbolRef.value symbol) steps slots result first).2
        = slots.take result ++ erase_symbol (slots.drop first) symbol := by
  induction steps with
  | zero =>
    intro slots result first _ hlen
    have hdrop : slots.drop first = [] := List.drop_of_length_le (by omega)
    simp [remove_if_loop, hdrop, erase_symbol]
  | succ n ih =>
    intro slots result first hlt hlen
    have hfirst : first < slots.length := by omega
    have hget : slots[first]? = some slots[first] := List.getElem?_eq_getElem hfirst
    have hdrop : slots.drop first = slots[first] :: slots.drop (first + 1) :=
      List.drop_eq_getElem_cons hfirst
    by_cases hsym : slots[first].symbol = symbol
    · have hstep : remove_if_loop (SymbolRef.value symbol) (n + 1) slots result first
          = remove_if_loop (SymbolRef.value symbol) n slots result (first + 1) := by
        simp [remove_if_loop, hget, SymbolRef.read, hsym]
      rw [hstep, ih slots result (first + 1) (by omega) (by omega), hdrop,
        erase_symbol_cons_of_eq _ _ _ hsym]
    · have hstep : remove_if_loop (SymbolRef.value symbol) (n + 1) slots result first
          = remove_if_loop (SymbolRef.value symbol) n
              ((slots.set result slots[first]).set first { slots[first] with symbol := "" })
              (result + 1) (first + 1) := by
        simp [remove_if_loop, hget, SymbolRef.read, hsym]
      have hresult : result < slots.length := by omega
      rw [hstep, ih _ (result + 1) (first + 1) (by omega) (by simp; omega), hdrop,
        erase_symbol_cons_of_ne _ _ _ hsym]
      rw [List.drop_set_of_lt _ _ (by omega), List.drop_set_of_lt _ _ (by omega)]
      rw [take_set_of_le _ _ first (result + 1) (by omega)]
      rw [List.take_succ, take_set_of_le _ _ result result (Nat.le_refl _)]
      rw [List.getElem?_set_self hresult]
      simp

theorem findIdx_of_split (symbol : Symbol) (pre : List Stock) (stock : Stock)
    (post : List Stock) (hpre : ∀ x ∈ pre, x.symbol ≠ symbol) (hstock : stock.symbol = symbol) :
    (pre ++ stock :: post).findIdx (fun st => decide (st.symbol = symbol)) = pre.length := by
  induction pre with
  | nil => simp [List.findIdx_cons, hstock]
  | cons a rest ih =>
    have ha : a.symbol ≠ symbol := hpre a (List.mem_cons_self _ _)
    rw [List.cons_append, List.findIdx_cons]
    simp [ha, ih (fun x hx => hpre x (List.mem_cons_of_mem _ hx))]

/-- With the symbol held outside the portfolio, the erase-remove idiom erases
exactly the holdings with that symbol. -/
theorem erase_remove_if_value (portfolio : Portfolio) (symbol : Symbol) :
    erase_remove_if portfolio (SymbolRef.value symbol) = erase_symbol portfolio symbol := by
  by_cases hex : ∃ st ∈ portfolio, st.symbol = symbol
  · obtain ⟨pre, stock, post, rfl, hpre, hstock⟩ := exists_first_of_mem symbol portfolio hex
    have hidx := findIdx_of_split symbol pre stock post hpre hstock
    have hrem : remove_if (pre ++ stock :: post) (SymbolRef.value symbol)
        = remove_if_loop (SymbolRef.value symbol) post.length (pre ++ stock :: post)
            pre.length (pre.length + 1) := by
      unfold remove_if
      simp only [SymbolRef.read, hidx]
      rw [if_pos (by simp)]
      congr 1
      simp only [List.length_append, List.length_cons]
      omega
    unfold erase_remove_if
    rw [hrem, remove_if_loop_value symbol post.length _ pre.length (pre.length + 1)
      (by omega) (by simp; omega)]
    rw [erase_symbol_eq_other_holdings, erase_symbol_eq_other_holdings,
      other_holdings_of_split pre post stock symbol hstock,
      other_holdings_of_absent pre symbol hpre]
    simp
  · have habs : ∀ x ∈ portfolio, x.symbol ≠ symbol :=
      fun x hx hs => hex ⟨x, hx, hs⟩
    have hidx : portfolio.findIdx (fun st => decide (st.symbol = symbol)) = portfolio.length :=
      List.findIdx_eq_length_of_false (fun x hx => by simpa using habs x hx)
    unfold erase_remove_if remove_if
    simp only [SymbolRef.read, hidx, Nat.lt_irrefl, if_false]
    rw [erase_symbol_eq_other_holdings, other_holdings_of_absent portfolio symbol habs]
    simp

theorem sell_stock_machine_loop_absent (symbol : Symbol) (quantity : Quantity)
    (visited remaining : List Stock) (h : ∀ x ∈ remaining, x.symbol ≠ symbol) :
    sell_stock_machine_loop (SymbolRef.value symbol) quantity visited remaining
      = (visited ++ remaining, [Msg.notFound symbol]) := by
  induction remaining generalizing visited with
  | nil => simp [sell_stock_machine_loop, SymbolRef.read]
  | cons a rest ih =>
    have ha : a.symbol ≠ symbol := h a (List.mem_cons_self _ _)
    have step := ih (visited ++ [a]) (fun x hx => h x (List.mem_cons_of_mem _ hx))
    have ha' : ¬ a.symbol = SymbolRef.read (visited ++ a :: rest) (SymbolRef.value symbol) :=
      ha
    rw [sell_stock_machine_loop_cons, if_neg ha', step]
    simp

/-- With the symbol held outside the portfolio and without overflow, the
machine-level `sell_stock` and the one on unbounded integers agree, in the
portfolio and in the messages. -/
theorem sell_stock_machine_eq_sell_stock (portfolio : Portfolio) (symbol : Symbol)
    (quantity : Quantity)
    (hrange : ∀ stock, portfolio.find? (fun st => decide (st.symbol = symbol)) = some stock →
      in_int_range (stock.quantity - quantity)) :
    sell_stock_machine portfolio (SymbolRef.value symbol) quantity
      = sell_stock portfolio symbol quantity := by
  by_cases hex : ∃ st ∈ portfolio, st.symbol = symbol
  · obtain ⟨pre, stock, post, rfl, hpre, hstock⟩ := exists_first_of_mem symbol portfolio hex
    have hloop := sell_stock_machine_loop_split (SymbolRef.value symbol) quantity [] pre stock
      post (fun x hx => hpre x hx) hstock
    unfold sell_stock_machine
    rw [hloop, sell_stock_of_split symbol quantity pre stock post hpre hstock,
      wrap_int_of_in_range _ (hrange stock (find_of_split symbol pre stock post hpre hstock)),
      erase_remove_if_value]
    simp only [List.nil_append, SymbolRef.read]
  · have habs : ∀ x ∈ portfolio, x.symbol ≠ symbol :=
      fun x hx hs => hex ⟨x, hx, hs⟩
    unfold sell_stock_machine
    rw [sell_stock_machine_loop_absent symbol quantity [] portfolio habs,
      sell_stock_of_absent symbol quantity portfolio habs]
    simp

/-- With the symbol held outside the portfolio, selling all shares of the first
holding with the symbol leaves no holding with that symbol. -/
theorem sell_stock_machine_all_of_value (portfolio : Portfolio) (s : Symbol) (stock : Stock)
    (hfirst : portfolio.find? (fun st => decide (st.symbol = s)) = some stock) :
    ∀ st ∈ (sell_stock_machine portfolio (SymbolRef.value s) stock.quantity).1,
      st.symbol ≠ s := by
  have hrange : ∀ first, portfolio.find? (fun st => decide (st.symbol = s)) = some first →
      in_int_range (first.quantity - stock.quantity) := by
    intro first hf
    rw [hfirst] at hf
    cases hf
    rw [sub_self]
    unfold in_int_range
    omega
  rw [sell_stock_machine_eq_sell_stock portfolio s stock.quantity hrange]
  obtain ⟨pre, post, rfl, hpre, hstock⟩ := split_of_find s portfolio stock hfirst
  rw [sell_stock_of_split s stock.quantity pre stock post hpre hstock]
  simp only [ge_iff_le, le_refl, if_true, sub_self]
  exact not_mem_erase_symbol _ s

/-- With the symbol held outside the portfolio, `sell_stock` leaves the holdings
of every other symbol as they were, also when the subtraction overflows. -/
theorem other_holdings_sell_stock_machine_of_value (portfolio : Portfolio) (s : Symbol)
    (q : Quantity) :
    other_holdings (sell_stock_machine portfolio (SymbolRef.value s) q).1 s
      = other_holdings portfolio s := by
  by_cases hex : ∃ st ∈ portfolio, st.symbol = s
  · obtain ⟨pre, stock, post, rfl, hpre, hstock⟩ := exists_first_of_mem s portfolio hex
    have hloop := sell_stock_machine_loop_split (SymbolRef.value s) q [] pre stock
      post (fun x hx => hpre x hx) hstock
    have hupd : other_holdings
        (pre ++ { stock with quantity := wrap_int (stock.quantity - q) } :: post) s
        = other_holdings (pre ++ stock :: post) s := by
      rw [other_holdings_of_split pre post stock s hstock,
        other_holdings_of_split pre post
          { stock with quantity := wrap_int (stock.quantity - q) } s hstock]
    unfold sell_stock_machine
    rw [hloop]
    simp only [List.nil_append]
    split_ifs
    · rw [erase_remove_if_value, erase_symbol_eq_other_holdings, other_holdings_idem]
      exact hupd
    · exact hupd
    · rfl
  · have habs : ∀ x ∈ portfolio, x.symbol ≠ s :=
      fun x hx hs => hex ⟨x, hx, hs⟩
    unfold sell_stock_machine
    rw [sell_stock_machine_loop_absent s q [] portfolio habs]
    simp

/-- `buy_stock` leaves the holdings of every other symbol as they were, also
when the addition overflows. -/
theorem other_holdings_buy_stock_machine (portfolio : Portfolio) (s : Symbol) (p : Price)
    (q : Quantity) :
    other_holdings (buy_stock_machine portfolio s p q).1 s = other_holdings portfolio s := by
  by_cases hex : ∃ st ∈ portfolio, st.symbol = s
  · obtain ⟨pre, stock, post, rfl, hpre, hstock⟩ := exists_first_of_mem s portfolio hex
    rw [buy_stock_machine_of_split s p q pre stock post hpre hstock]
    show other_holdings
        (pre ++ { stock with quantity := wrap_int (stock.quantity + q), price := p } :: post) s
      = other_holdings (pre ++ stock :: post) s
    rw [other_holdings_of_split pre post stock s hstock,
      other_holdings_of_split pre post
        { stock with quantity := wrap_int (stock.quantity + q), price := p } s hstock]
  · have habs : ∀ x ∈ portfolio, x.symbol ≠ s :=
      fun x hx hs => hex ⟨x, hx, hs⟩
    rw [buy_stock_machine_of_absent s p q portfolio habs]
    have hnew := other_holdings_of_split portfolio []
      { symbol := s, price := p, quantity := q } s rfl
    rw [hnew]
    simp [other_holdings]

/-! ## Theorems -/

/-- C1: for every portfolio, `calculate_total_value` is the sum over all
holdings of price times quantity (exact arithmetic); the function is total, and
it is 0 on the empty portfolio. -/
theorem calculate_total_value_eq_sum :
    (∀ portfolio : Portfolio,
      calculate_total_value portfolio
        = (portfolio.map (fun stock => stock.price * (stock.quantity : Price))).sum) ∧
    calculate_total_value [] = 0 := by
  refine ⟨fun portfolio => ?_, rfl⟩
  unfold calculate_total_value
  rw [foldl_total_value, zero_add]

/-- C2, as stated, fails: buying 1 share of a symbol held with quantity
2147483647 overflows the `int` addition; the holding ends with quantity
-2147483648, not with the old quantity plus 1. -/
theorem buy_stock_machine_overflow :
    buy_stock_machine overflow_portfolio "ABC" 50 1
      = ([{ symbol := "ABC", price := 50, quantity := -2147483648 }],
          [Msg.bought 1 "ABC" 50]) ∧
    (buy_stock_machine overflow_portfolio "ABC" 50 1).1[0]?
      ≠ some { symbol := "ABC", price := 50, quantity := 2147483647 + 1 } := by
  decide

/-- C2, amended: when the first holding with symbol `s` (position `i`) has
quantity `h` and `h + q` lies in the range of a 32-bit `int`, `buy_stock` keeps
the length, sets that holding to quantity `h + q` at price `p`, and leaves
every other position as it was. -/
theorem buy_stock_machine_existing (portfolio : Portfolio) (s : Symbol) (p : Price)
    (q : Quantity) (old : Stock)
    (hfirst : portfolio.find? (fun st => decide (st.symbol = s)) = some old)
    (hrange : in_int_range (old.quantity + q)) :
    ∃ i : Nat,
      portfolio[i]? = some old ∧
      (∀ j, j < i → ∀ st, portfolio[j]? = some st → st.symbol ≠ s) ∧
      (buy_stock_machine portfolio s p q).1.length = portfolio.length ∧
      (buy_stock_machine portfolio s p q).1[i]?
        = some { symbol := s, price := p, quantity := old.quantity + q } ∧
      ∀ j, j ≠ i → (buy_stock_machine portfolio s p q).1[j]? = portfolio[j]? := by
  obtain ⟨pre, post, rfl, hpre, hstock⟩ := split_of_find s portfolio old hfirst
  rw [buy_stock_machine_of_split s p q pre old post hpre hstock,
    wrap_int_of_in_range _ hrange]
  obtain ⟨hlen, hold, hnew, hrest⟩ := positions_of_split pre post old
    { old with quantity := old.quantity + q, price := p }
  refine ⟨pre.length, hold, no_match_before s pre _ hpre, hlen, ?_, hrest⟩
  rw [hnew, hstock]

theorem buy_stock_machine_existing_witness :
    sample_portfolio.find? (fun st => decide (st.symbol = "XYZ"))
      = some { symbol := "XYZ", price := 25, quantity := 20 } ∧
    in_int_range ((20 : Quantity) + 5) ∧
    ∃ i : Nat,
      sample_portfolio[i]? = some { symbol := "XYZ", price := 25, quantity := 20 } ∧
      (∀ j, j < i → ∀ st, sample_portfolio[j]? = some st → st.symbol ≠ "XYZ") ∧
      (buy_stock_machine sample_portfolio "XYZ" 30 5).1.length = sample_portfolio.length ∧
      (buy_stock_machine sample_portfolio "XYZ" 30 5).1[i]?
        = some { symbol := "XYZ", price := 30, quantity := 20 + 5 } ∧
      ∀ j, j ≠ i →
        (buy_stock_machine sample_portfolio "XYZ" 30 5).1[j]? = sample_portfolio[j]? :=
  ⟨by decide, by decide,
    buy_stock_machine_existing sample_portfolio "XYZ" 30 5
      { symbol := "XYZ", price := 25, quantity := 20 } (by decide) (by decide)⟩

/-- C3: when the portfolio does not hold the symbol, `buy_stock` appends the new
holding at the end and changes nothing else. -/
theorem buy_stock_new (portfolio : Portfolio) (s : Symbol) (p : Price) (q : Quantity)
    (h : ∀ st ∈ portfolio, st.symbol ≠ s) :
    (buy_stock portfolio s p q).1 = portfolio ++ [{ symbol := s, price := p, quantity := q }] := by
  rw [buy_stock_of_absent s p q portfolio h]

theorem buy_stock_new_witness :
    (∀ st ∈ sample_portfolio, st.symbol ≠ "DEF") ∧
    (buy_stock sample_portfolio "DEF" 7 3).1
      = sample_portfolio ++ [{ symbol := "DEF", price := 7, quantity := 3 }] :=
  ⟨by decide, buy_stock_new sample_portfolio "DEF" 7 3 (by decide)⟩

/-- C5: when the first holding with symbol `s` has quantity `h` and `q > h`,
`sell_stock` returns the portfolio unchanged, prints exactly the
not-enough-shares line, and prints no "Sold" line. -/
theorem sell_stock_insufficient (portfolio : Portfolio) (s : Symbol) (stock : Stock)
    (q : Quantity)
    (hfirst : portfolio.find? (fun st => decide (st.symbol = s)) = some stock)
    (hq : q > stock.quantity) :
    sell_stock portfolio s q = (portfolio, [Msg.notEnough s]) ∧
    ∀ q' s', Msg.sold q' s' ∉ (sell_stock portfolio s q).2 := by
  obtain ⟨pre, post, rfl, hpre, hstock⟩ := split_of_find s portfolio stock hfirst
  have hsell : sell_stock (pre ++ stock :: post) s q
      = (pre ++ stock :: post, [Msg.notEnough s]) := by
    rw [sell_stock_of_split s q pre stock post hpre hstock]
    exact if_neg (not_le.mpr hq)
  refine ⟨hsell, ?_⟩
  intro q' s' hmem
  rw [hsell] at hmem
  simp at hmem

theorem sell_stock_insufficient_witness :
    sample_portfolio.find? (fun st => decide (st.symbol = "ABC"))
      = some { symbol := "ABC", price := 50, quantity := 10 } ∧
    (11 : Quantity) > 10 ∧
    sell_stock sample_portfolio "ABC" 11 = (sample_portfolio, [Msg.notEnough "ABC"]) ∧
    ∀ q' s', Msg.sold q' s' ∉ (sell_stock sample_portfolio "ABC" 11).2 :=
  ⟨by decide, by decide,
    sell_stock_insufficient sample_portfolio "ABC"
      { symbol := "ABC", price := 50, quantity := 10 } 11 (by decide) (by decide)⟩

/-- C6: when no holding has symbol `s`, `sell_stock` returns the portfolio
unchanged and prints exactly the not-found line; and whenever a not-found line
is printed, no holding has symbol `s`. -/
theorem sell_stock_not_found (portfolio : Portfolio) (s : Symbol) (q : Quantity) :
    ((∀ st ∈ portfolio, st.symbol ≠ s) →
      sell_stock portfolio s q = (portfolio, [Msg.notFound s])) ∧
    (∀ s', Msg.notFound s' ∈ (sell_stock portfolio s q).2 →
      ∀ st ∈ portfolio, st.symbol ≠ s) := by
  refine ⟨sell_stock_of_absent s q portfolio, ?_⟩
  intro s' hmem
  by_contra hex
  have hex' : ∃ st ∈ portfolio, st.symbol = s := by
    by_contra hnone
    exact hex (fun st hst hs => hnone ⟨st, hst, hs⟩)
  obtain ⟨pre, stock, post, rfl, hpre, hstock⟩ := exists_first_of_mem s portfolio hex'
  rw [sell_stock_of_split s q pre stock post hpre hstock] at hmem
  split_ifs at hmem <;> simp at hmem

theorem sell_stock_not_found_witness :
    (∀ st ∈ sample_portfolio, st.symbol ≠ "DEF") ∧
    sell_stock sample_portfolio "DEF" 4 = (sample_portfolio, [Msg.notFound "DEF"]) ∧
    Msg.notFound "DEF" ∈ (sell_stock sample_portfolio "DEF" 4).2 :=
  ⟨(sell_stock_not_found sample_portfolio "DEF" 4).2 "DEF" (by decide),
    (sell_stock_not_found sample_portfolio "DEF" 4).1 (by decide), by decide⟩

/-- C7, as stated, fails: selling -2147483648 shares of a symbol held with
quantity 10 passes the guard (10 > -2147483648) and overflows the `int`
subtraction; the holding ends with quantity -2147483638, not with
10 - (-2147483648). -/
theorem sell_stock_machine_overflow :
    sell_stock_machine [{ symbol := "ABC", price := 50, quantity := 10 }]
        (SymbolRef.value "ABC") (-2147483648)
      = ([{ symbol := "ABC", price := 50, quantity := -2147483638 }],
          [Msg.sold (-2147483648) "ABC"]) ∧
    (sell_stock_machine [{ symbol := "ABC", price := 50, quantity := 10 }]
        (SymbolRef.value "ABC") (-2147483648)).1[0]?
      ≠ some { symbol := "ABC", price := 50, quantity := 10 - (-2147483648) } := by
  decide

/-- C7, amended: when the first holding with symbol `s` (position `i`) has
quantity `h`, `h > q`, and `h - q` lies in the range of a 32-bit `int`,
`sell_stock` keeps the length, sets that holding to quantity `h - q` at its old
price, and leaves every other position as it was. Here `s` is the string the
symbol argument refers to, inside the portfolio or outside of it. -/
theorem sell_stock_machine_partial (portfolio : Portfolio) (ref : SymbolRef)
    (stock : Stock) (q : Quantity)
    (hfirst : portfolio.find? (fun st => decide (st.symbol = ref.read portfolio)) = some stock)
    (hq : stock.quantity > q) (hrange : in_int_range (stock.quantity - q)) :
    ∃ i : Nat,
      portfolio[i]? = some stock ∧
      (∀ j, j < i → ∀ st, portfolio[j]? = some st → st.symbol ≠ ref.read portfolio) ∧
      (sell_stock_machine portfolio ref q).1.length = portfolio.length ∧
      (sell_stock_machine portfolio ref q).1[i]?
        = some { symbol := ref.read portfolio, price := stock.price,
                 quantity := stock.quantity - q } ∧
      ∀ j, j ≠ i → (sell_stock_machine portfolio ref q).1[j]? = portfolio[j]? := by
  obtain ⟨pre, post, hsplit, hpre, hstock⟩ :=
    split_of_find (ref.read portfolio) portfolio stock hfirst
  have hsell : (sell_stock_machine portfolio ref q).1
      = pre ++ { stock with quantity := stock.quantity - q } :: post := by
    have hloop := sell_stock_machine_loop_split ref q [] pre stock post
      (by rw [List.nil_append, ← hsplit]; exact hpre)
      (by rw [List.nil_append, ← hsplit]; exact hstock)
    unfold sell_stock_machine
    rw [hsplit, hloop, wrap_int_of_in_range _ hrange, if_pos (le_of_lt hq),
      if_neg (sub_ne_zero.mpr (ne_of_gt hq))]
    rfl
  rw [hsell]
  obtain ⟨hlen, hold, hnew, hrest⟩ := positions_of_split pre post stock
    { stock with quantity := stock.quantity - q }
  rw [hsplit]
  rw [hsplit] at hpre hstock
  refine ⟨pre.length, hold, no_match_before _ pre _ hpre, hlen, ?_, hrest⟩
  rw [hnew, hstock]

theorem sell_stock_machine_partial_witness :
    sample_portfolio.find?
        (fun st => decide (st.symbol = SymbolRef.read sample_portfolio (SymbolRef.element 1)))
      = some { symbol := "XYZ", price := 25, quantity := 20 } ∧
    (20 : Quantity) > 8 ∧ in_int_range ((20 : Quantity) - 8) ∧
    ∃ i : Nat,
      sample_portfolio[i]? = some { symbol := "XYZ", price := 25, quantity := 20 } ∧
      (∀ j, j < i → ∀ st, sample_portfolio[j]? = some st →
        st.symbol ≠ SymbolRef.read sample_portfolio (SymbolRef.element 1)) ∧
      (sell_stock_machine sample_portfolio (SymbolRef.element 1) 8).1.length
        = sample_portfolio.length ∧
      (sell_stock_machine sample_portfolio (SymbolRef.element 1) 8).1[i]?
        = some { symbol := SymbolRef.read sample_portfolio (SymbolRef.element 1),
                 price := 25, quantity := 20 - 8 } ∧
      ∀ j, j ≠ i →
        (sell_stock_machine sample_portfolio (SymbolRef.element 1) 8).1[j]?
          = sample_portfolio[j]? :=
  ⟨by decide, by decide, by decide,
    sell_stock_machine_partial sample_portfolio (SymbolRef.element 1)
      { symbol := "XYZ", price := 25, quantity := 20 } 8 (by decide) (by decide) (by decide)⟩

/-- C8: the example run. After buying 10 ABC at 50 and 20 XYZ at 25 the total
is 1000; after then selling 5 ABC the ABC holding has quantity 5 and the total
is 750; after then selling 20 XYZ there is no XYZ holding, the portfolio is the
single holding ABC, 50, 5, and the total is 250. -/
theorem example_run :
    calculate_total_value
        (run_calls [] [Call.buy "ABC" 50 10, Call.buy "XYZ" 25 20]) = 1000 ∧
    (run_calls [] [Call.buy "ABC" 50 10, Call.buy "XYZ" 25 20, Call.sell "ABC" 5]).find?
        (fun st => decide (st.symbol = "ABC"))
      = some { symbol := "ABC", price := 50, quantity := 5 } ∧
    calculate_total_value
        (run_calls [] [Call.buy "ABC" 50 10, Call.buy "XYZ" 25 20, Call.sell "ABC" 5])
      = 750 ∧
    (∀ st ∈ run_calls []
        [Call.buy "ABC" 50 10, Call.buy "XYZ" 25 20, Call.sell "ABC" 5, Call.sell "XYZ" 20],
      st.symbol ≠ "XYZ") ∧
    run_calls []
        [Call.buy "ABC" 50 10, Call.buy "XYZ" 25 20, Call.sell "ABC" 5, Call.sell "XYZ" 20]
      = [{ symbol := "ABC", price := 50, quantity := 5 }] ∧
    calculate_total_value
        (run_calls []
          [Call.buy "ABC" 50 10, Call.buy "XYZ" 25 20, Call.sell "ABC" 5, Call.sell "XYZ" 20])
      = 250 := by
  have h2 : run_calls [] [Call.buy "ABC" 50 10, Call.buy "XYZ" 25 20]
      = [{ symbol := "ABC", price := 50, quantity := 10 },
         { symbol := "XYZ", price := 25, quantity := 20 }] := by decide
  have h3 : run_calls [] [Call.buy "ABC" 50 10, Call.buy "XYZ" 25 20, Call.sell "ABC" 5]
      = [{ symbol := "ABC", price := 50, quantity := 5 },
         { symbol := "XYZ", price := 25, quantity := 20 }] := by decide
  have h4 : run_calls []
      [Call.buy "ABC" 50 10, Call.buy "XYZ" 25 20, Call.sell "ABC" 5, Call.sell "XYZ" 20]
      = [{ symbol := "ABC", price := 50, quantity := 5 }] := by decide
  rw [h2, h3, h4]
  refine ⟨?_, by decide, ?_, by decide, rfl, ?_⟩ <;>
    norm_num [calculate_total_value]

/-- C9: uniqueness by symbol is an invariant. `buy_stock` and `sell_stock`
keep a portfolio unique by symbol, whatever their arguments, and so every
portfolio reached from the empty one by a sequence of calls is unique by
symbol. -/
theorem unique_by_symbol_invariant :
    (∀ (portfolio : Portfolio) (s : Symbol) (p : Price) (q : Quantity),
      UniqueBySymbol portfolio → UniqueBySymbol (buy_stock portfolio s p q).1) ∧
    (∀ (portfolio : Portfolio) (s : Symbol) (q : Quantity),
      UniqueBySymbol portfolio → UniqueBySymbol (sell_stock portfolio s q).1) ∧
    (∀ calls : List Call, UniqueBySymbol (run_calls [] calls)) :=
  ⟨unique_buy_stock, unique_sell_stock,
    fun calls => unique_run_calls calls [] List.nodup_nil⟩

theorem unique_by_symbol_invariant_witness :
    UniqueBySymbol sample_portfolio ∧
    UniqueBySymbol (buy_stock sample_portfolio "XYZ" 30 5).1 ∧
    UniqueBySymbol (sell_stock sample_portfolio "XYZ" 20).1 ∧
    UniqueBySymbol (run_calls [] sample_calls) :=
  ⟨by decide,
    unique_by_symbol_invariant.1 sample_portfolio "XYZ" 30 5 (by decide),
    unique_by_symbol_invariant.2.1 sample_portfolio "XYZ" 20 (by decide),
    unique_by_symbol_invariant.2.2 sample_calls⟩

/-- C10, as stated, fails: a buy of a new symbol with quantity -1 leaves a
holding of negative quantity, and one with quantity 0 leaves a holding of
quantity 0 in the portfolio. -/
theorem holding_invariant_counterexample :
    run_calls [] [Call.buy "ABC" 50 (-1)] = [{ symbol := "ABC", price := 50, quantity := -1 }] ∧
    ¬ HoldingInvariant (run_calls [] [Call.buy "ABC" 50 (-1)]) ∧
    run_calls [] [Call.buy "ABC" 50 0] = [{ symbol := "ABC", price := 50, quantity := 0 }] ∧
    ¬ HoldingInvariant (run_calls [] [Call.buy "ABC" 50 0]) := by
  decide

/-- C10, amended: for every sequence of calls applied to the empty portfolio in
which every `buy_stock` call has a strictly positive quantity (the quantities
of `sell_stock` calls are arbitrary), every holding of the result has quantity
at least 0 and none has quantity 0. -/
theorem holding_invariant_of_positive_buys (calls : List Call)
    (hbuys : ∀ s p q, Call.buy s p q ∈ calls → 0 < q) :
    HoldingInvariant (run_calls [] calls) :=
  invariant_run_calls calls [] hbuys (fun _ hmem => absurd hmem (List.not_mem_nil _))

theorem holding_invariant_of_positive_buys_witness :
    (∀ s p q, Call.buy s p q ∈ sample_calls → 0 < q) ∧
    HoldingInvariant (run_calls [] sample_calls) :=
  have hbuys : ∀ s p q, Call.buy s p q ∈ sample_calls → 0 < q := by
    intro s p q hmem
    simp [sample_calls] at hmem
    rcases hmem with ⟨_, _, hq⟩ | ⟨_, _, hq⟩ <;> simp [hq]
  ⟨hbuys, holding_invariant_of_positive_buys sample_calls hbuys⟩

/-- C11: for every sequence of calls applied to the empty portfolio in which
every quantity argument is strictly positive, every holding of the result has
a strictly positive quantity. -/
theorem positive_quantities (calls : List Call)
    (hpos : ∀ c ∈ calls, 0 < c.quantity) :
    ∀ st ∈ run_calls [] calls, 0 < st.quantity := by
  have hinv : HoldingInvariant (run_calls [] calls) :=
    invariant_run_calls calls []
      (fun s p q hmem => hpos (Call.buy s p q) hmem)
      (fun _ hmem => absurd hmem (List.not_mem_nil _))
  intro st hst
  exact lt_of_le_of_ne (hinv st hst).1 (Ne.symm (hinv st hst).2)

theorem positive_quantities_witness :
    (∀ c ∈ sample_calls, 0 < c.quantity) ∧
    ∀ st ∈ run_calls [] sample_calls, 0 < st.quantity :=
  ⟨by decide, positive_quantities sample_calls (by decide)⟩

/-- C12, as stated, fails: after the buys of 2147483647 and then 1 share of the
same symbol the `int` addition has overflowed; the holding has quantity
-2147483648, while the quantities bought sum to 2147483648. -/
theorem run_buys_machine_overflow :
    run_buys_machine [] overflow_buys
      = [{ symbol := "A", price := 1, quantity := -2147483648 }] ∧
    total_bought overflow_buys "A" = 2147483648 ∧
    ¬ (∀ st ∈ run_buys_machine [] overflow_buys,
        st.quantity = total_bought overflow_buys st.symbol) := by
  decide

/-- C12, amended: for every sequence of buys applied to the empty portfolio in
which every running total of the quantities bought for a symbol stays in the
range of a 32-bit `int`, the result is the portfolio of the specification. Its
symbols are the distinct symbols bought, each once, in order of first buy; each
holding's quantity is the sum of all quantities bought for its symbol, and its
price is the price of the last buy of that symbol. -/
theorem buys_machine_refinement (buys : List Buy)
    (hrange : ∀ n s, in_int_range (total_bought (buys.take n) s)) :
    run_buys_machine [] buys = expected_portfolio buys ∧
    (run_buys_machine [] buys).map Stock.symbol
      = first_occurrences (buys.map Buy.symbol) ∧
    UniqueBySymbol (run_buys_machine [] buys) ∧
    (∀ s, (∃ st ∈ run_buys_machine [] buys, st.symbol = s) ↔
      ∃ b ∈ buys, b.symbol = s) ∧
    (∀ st ∈ run_buys_machine [] buys,
      st.quantity = total_bought buys st.symbol ∧
      last_price buys st.symbol = some st.price) := by
  have hsym : (expected_portfolio buys).map Stock.symbol
      = first_occurrences (buys.map Buy.symbol) := by
    unfold expected_portfolio
    rw [List.map_map]
    exact (List.map_congr_left (fun s _ => rfl)).trans (List.map_id _)
  rw [run_buys_machine_eq_expected buys hrange]
  refine ⟨rfl, hsym, ?_, ?_, ?_⟩
  · unfold UniqueBySymbol
    rw [hsym]
    exact nodup_first_occurrences _
  · intro s
    have hiff : (∃ st ∈ expected_portfolio buys, st.symbol = s)
        ↔ s ∈ (expected_portfolio buys).map Stock.symbol := by
      simp [List.mem_map]
    rw [hiff, hsym, mem_first_occurrences]
    simp [List.mem_map]
  · intro st hst
    obtain ⟨s, hs, rfl⟩ := List.mem_map.mp hst
    have hs' : s ∈ buys.map Buy.symbol := (mem_first_occurrences _ _).mp hs
    exact ⟨rfl, last_price_of_mem buys s hs'⟩

theorem buys_machine_refinement_witness :
    (∀ n s, in_int_range (total_bought (sample_buys.take n) s)) ∧
    run_buys_machine [] sample_buys
      = [{ symbol := "ABC", price := 60, quantity := 15 },
         { symbol := "XYZ", price := 25, quantity := 20 }] ∧
    expected_portfolio sample_buys
      = [{ symbol := "ABC", price := 60, quantity := 15 },
         { symbol := "XYZ", price := 25, quantity := 20 }] :=
  ⟨sample_buys_in_range, by decide,
    by rw [← (buys_machine_refinement sample_buys sample_buys_in_range).1]; decide⟩

/-- C14: in a portfolio that is unique by symbol and has a holding with symbol
`s`, price `p` and quantity `h`, selling `q` shares with `q` at most `h` lowers
the total value by exactly `p * q`, whether the holding stays or is removed. -/
theorem sell_stock_total_value (portfolio : Portfolio) (s : Symbol) (stock : Stock)
    (q : Quantity) (hu : UniqueBySymbol portfolio) (hmem : stock ∈ portfolio)
    (hs : stock.symbol = s) (hq : q ≤ stock.quantity) :
    calculate_total_value (sell_stock portfolio s q).1
      = calculate_total_value portfolio - stock.price * (q : Price) := by
  obtain ⟨pre, post, rfl, hpre, hpost⟩ := unique_split portfolio stock hu hmem
  rw [hs] at hpre hpost
  rw [sell_stock_of_split s q pre stock post hpre hs, if_pos hq]
  split_ifs with hzero
  · rw [erase_symbol_eq_other_holdings,
      other_holdings_of_split pre post
        { stock with quantity := stock.quantity - q } s hs,
      other_holdings_of_absent pre s hpre, other_holdings_of_absent post s hpost,
      total_value_append, total_value_append, total_value_cons]
    have hq' : stock.quantity = q := by
      have := sub_eq_zero.mp hzero
      exact this
    rw [hq']
    ring
  · rw [total_value_append, total_value_append, total_value_cons, total_value_cons]
    push_cast
    ring

theorem sell_stock_total_value_witness :
    UniqueBySymbol sample_portfolio ∧
    ({ symbol := "XYZ", price := 25, quantity := 20 } : Stock) ∈ sample_portfolio ∧
    (8 : Quantity) ≤ 20 ∧
    calculate_total_value (sell_stock sample_portfolio "XYZ" 8).1
      = calculate_total_value sample_portfolio - 25 * ((8 : Quantity) : Price) :=
  ⟨by decide, by decide, by decide,
    sell_stock_total_value sample_portfolio "XYZ"
      { symbol := "XYZ", price := 25, quantity := 20 } 8
      (by decide) (by decide) rfl (by decide)⟩

/-- C15: buying a symbol that the portfolio does not hold and then selling the
same quantity of it gives back exactly the original portfolio, for every price
and every integer quantity. -/
theorem buy_then_sell_round_trip (portfolio : Portfolio) (s : Symbol) (p : Price)
    (q : Quantity) (h : ∀ st ∈ portfolio, st.symbol ≠ s) :
    (sell_stock (buy_stock portfolio s p q).1 s q).1 = portfolio := by
  rw [buy_stock_of_absent s p q portfolio h]
  rw [sell_stock_of_split s q portfolio { symbol := s, price := p, quantity := q } [] h rfl]
  simp only [ge_iff_le, le_refl, if_true, sub_self]
  rw [erase_symbol_eq_other_holdings,
    other_holdings_of_split portfolio [] _ s rfl, other_holdings_of_absent portfolio s h]
  simp [other_holdings]

theorem buy_then_sell_round_trip_witness :
    (∀ st ∈ sample_portfolio, st.symbol ≠ "DEF") ∧
    (sell_stock (buy_stock sample_portfolio "DEF" 7 3).1 "DEF" 3).1 = sample_portfolio :=
  ⟨by decide, buy_then_sell_round_trip sample_portfolio "DEF" 7 3 (by decide)⟩

/-- C16: the "sell" entry of the operation table ignores its price argument.
For any two prices it gives the same portfolio and the same messages, both
those of `sell_stock` on the same symbol and quantity; and the "buy" entry is
`buy_stock` itself. -/
theorem operations_sell_ignores_price :
    List.lookup "buy" operations = some buy_stock ∧
    ∃ sell_op : PortfolioOperation,
      List.lookup "sell" operations = some sell_op ∧
      ∀ (portfolio : Portfolio) (s : Symbol) (q : Quantity) (p1 p2 : Price),
        sell_op portfolio s p1 q = sell_op portfolio s p2 q ∧
        sell_op portfolio s p1 q = sell_stock portfolio s q ∧
        sell_op portfolio s p2 q = sell_stock portfolio s q := by
  refine ⟨rfl, _, rfl, ?_⟩
  intro portfolio s q p1 p2
  exact ⟨rfl, rfl, rfl⟩


end PortfolioOptimization
